import Mathlib

/-!
Verification of the stem version module (src/stem/version.py) and, where the
sources only ship tests for it, the descriptor Query orchestrator described by
the specification.

The Python code is shallowly embedded: strings become `List Char`/`String`,
Python ints become `Int` (they are unbounded and signed), optional attributes
become `Option`, and fallible constructors return `Except`.  The regular
expression used by `Version.__init__` is embedded as an executable
backtracking matcher that follows Python `re` semantics for this particular
pattern: greedy `[0-9]+` groups (longest candidate first), an unescaped `.`
matching any single non-newline character, greedy optional groups (presence
tried before absence), `\S` meaning a non-whitespace character, and the
anchor `$` (without re.MULTILINE) matching at the end of the input or just
before a newline that ends the input, so that the remaining input at the
anchor is either empty or a single trailing newline.
-/

namespace Stem

/-! ## Character classes of the pattern `^([0-9]+).([0-9]+).([0-9]+)(.[0-9]+)?(-\S*)?$` -/

/-- The class `[0-9]` of the version pattern. -/
def isDigitCh (c : Char) : Bool := 48 ≤ c.toNat && c.toNat ≤ 57

/-- An unescaped `.` in a Python pattern matches any character except a newline. -/
def isDotAny (c : Char) : Bool := c != '\n'

/-- Python 2 `\s` on byte strings: space, tab, newline, carriage return,
vertical tab and form feed. -/
def isPySpaceCh (c : Char) : Bool :=
  c == ' ' || c == '\t' || c == '\n' || c == '\r' || c == '\x0b' || c == '\x0c'

/-- Python `\S`: any character that is not whitespace. -/
def isNonSpaceCh (c : Char) : Bool := !(isPySpaceCh c)

/-! ## Backtracking search primitives

`firstSome` is the backtracking engine: it returns the first candidate (in
list order) on which the continuation succeeds, exactly as Python `re` takes
the first branch, in its preference order, whose continuation matches. -/

def firstSome {α β : Type} (f : α → Option β) : List α → Option β
  | [] => none
  | a :: l =>
    match f a with
    | some b => some b
    | none => firstSome f l

/-- All ways `[0-9]+` can match a prefix of `s`, paired with the remainder,
in the greedy preference order of Python `re`: longest first. -/
def digitSplits : List Char → List (List Char × List Char)
  | [] => []
  | c :: cs =>
    if isDigitCh c then
      (digitSplits cs).map (fun p => (c :: p.1, p.2)) ++ [([c], cs)]
    else []

/-- All ways `\S*` can match a prefix of `s`, paired with the remainder, in
greedy preference order: longest first, the empty match last. -/
def nonspaceSplits : List Char → List (List Char × List Char)
  | [] => [([], [])]
  | c :: cs =>
    if isNonSpaceCh c then
      (nonspaceSplits cs).map (fun p => (c :: p.1, p.2)) ++ [([], c :: cs)]
    else [([], c :: cs)]

/-! ## The matcher for `^([0-9]+).([0-9]+).([0-9]+)(.[0-9]+)?(-\S*)?$`

Groups are returned with their separators already stripped, mirroring the
strip that `Version.__init__` performs on groups 4 and 5 (both are nonempty
strings whenever they matched, so the Python truthiness test before the strip
always passes for a matched group). -/

/-- Groups 1-5: major digits, minor digits, micro digits, optional patch
digits, optional status characters (after the dash). -/
abbrev Groups :=
  List Char × List Char × List Char × Option (List Char) × Option (List Char)

/-- The tail groups 4 and 5. -/
abbrev Tail4 := Option (List Char) × Option (List Char)

/-- The anchor `$` of a Python pattern without re.MULTILINE: it matches at
the end of the input, or just before a newline that ends the input, so the
unconsumed remainder must be empty or exactly one trailing newline. -/
def atDollar (s : List Char) : Bool := s == [] || s == ['\n']

/-- Match `-\S*` (the taken branch of group 5) followed by `$`; returns the
characters matched by `\S*` (a trailing newline accepted by `$` is not part
of the group). -/
def matchStatusTaken (s : List Char) : Option (List Char) :=
  match s with
  | c :: rest =>
    if c = '-' then
      firstSome (fun p => if atDollar p.2 then some p.1 else none) (nonspaceSplits rest)
    else none
  | [] => none

/-- Match `(-\S*)?$`: the group is greedy, so its taken branch is tried
before the empty branch, and the empty branch requires `$` to match at the
current position. -/
def matchStatusEnd (s : List Char) : Option (Option (List Char)) :=
  match matchStatusTaken s with
  | some st => some (some st)
  | none => if atDollar s then some none else none

/-- The taken branch of group 4, `.[0-9]+`, followed by `(-\S*)?$`.  The
leading `.` is unescaped and therefore matches any non-newline character. -/
def matchPatchTaken (s : List Char) : Option Tail4 :=
  match s with
  | c :: rest =>
    if isDotAny c then
      firstSome (fun p => (matchStatusEnd p.2).map (fun st => (some p.1, st)))
        (digitSplits rest)
    else none
  | [] => none

/-- Match `(.[0-9]+)?(-\S*)?$`: greedy, so the taken branch of group 4 is
tried, with all of its internal backtracking, before the group is skipped. -/
def matchPatchTail (s : List Char) : Option Tail4 :=
  match matchPatchTaken s with
  | some r => some r
  | none => (matchStatusEnd s).map (fun st => (none, st))

/-- An unescaped `.` separator followed by a continuation: one non-newline
character is consumed and the continuation must match after it. -/
def sepThen {γ : Type} (k : List Char → Option γ) (s : List Char) : Option γ :=
  match s with
  | c :: rest => if isDotAny c then k rest else none
  | [] => none

/-- Match `([0-9]+)(.[0-9]+)?(-\S*)?$` (group 3 onwards). -/
def matchFrom3 (s : List Char) : Option (List Char × Tail4) :=
  firstSome (fun p => (matchPatchTail p.2).map (fun t => (p.1, t))) (digitSplits s)

/-- Match `([0-9]+).([0-9]+)(.[0-9]+)?(-\S*)?$` (group 2 onwards). -/
def matchFrom2 (s : List Char) : Option (List Char × List Char × Tail4) :=
  firstSome (fun p => (sepThen matchFrom3 p.2).map (fun t => (p.1, t))) (digitSplits s)

/-- The full anchored pattern `^([0-9]+).([0-9]+).([0-9]+)(.[0-9]+)?(-\S*)?$`
of `Version.__init__`, with Python re leftmost-greedy semantics. -/
def reMatchVersion (s : List Char) : Option Groups :=
  firstSome (fun p => (sepThen matchFrom2 p.2).map (fun t => (p.1, t))) (digitSplits s)

/-! ## Decimal digits: Python `int(...)` on digit strings and `"%i"` rendering -/

/-- Python `int(...)` applied to a string of decimal digits. -/
def digitsVal (cs : List Char) : Nat :=
  cs.foldl (fun a c => a * 10 + (c.toNat - 48)) 0

/-- The character of a decimal digit value. -/
def digitCh (d : Nat) : Char := Char.ofNat (48 + d)

/-- Fuel-driven core of decimal rendering, emitting digits most significant
first into the accumulator. -/
def natCharsCore : Nat → Nat → List Char → List Char
  | 0, _, acc => acc
  | fuel + 1, n, acc =>
    if n < 10 then digitCh (n % 10) :: acc
    else natCharsCore fuel (n / 10) (digitCh (n % 10) :: acc)

/-- Canonical decimal rendering of a natural number, as Python `"%i"` prints
a nonnegative int: no sign, no leading zeros, `0` for zero. -/
def natChars (n : Nat) : List Char := natCharsCore (n + 1) n []

/-- Python `"%i"` rendering of an int: a minus sign in front of the decimal
rendering of the absolute value when negative. -/
def intChars (i : Int) : List Char :=
  if i < 0 then '-' :: natChars i.natAbs else natChars i.toNat

/-- Decimal rendering as a `String`. -/
def natStr (n : Nat) : String := String.mk (natChars n)

/-! ## The Version data model (class Version of src/stem/version.py) -/

/-- Attributes of a `Version` object: `major`, `minor` and `micro` are Python
ints, `patch` is an optional int (`None` when the fourth component was
absent) and `status` an optional string (`None` when no dash suffix was
present; the empty string when a bare dash was matched). -/
structure Version where
  major : Int
  minor : Int
  micro : Int
  patch : Option Int
  status : Option String
deriving DecidableEq

/-- Conversion of matched groups into attributes, as done at the end of
`Version.__init__`: groups 1-3 through `int(...)`, group 4 through
`int(patch[1:])` when matched, group 5 stripped of its dash when matched. -/
def versionOfGroups : Groups → Version
  | (g1, g2, g3, g4, g5) =>
    { major := (digitsVal g1 : Int)
      minor := (digitsVal g2 : Int)
      micro := (digitsVal g3 : Int)
      patch := g4.map (fun ds => (digitsVal ds : Int))
      status := g5.map (fun cs => String.mk cs) }

/-- `Version.__init__`: match the version pattern against the whole input and
build the attributes, or raise `ValueError` naming the offending string. -/
def parseVersion (s : String) : Except String Version :=
  match reMatchVersion s.data with
  | some g => Except.ok (versionOfGroups g)
  | none => Except.error (s ++ " is not a properly formatted tor version")

/-- The `.patch` part of the `__str__` suffix: appended only when
`self.patch` is truthy in Python, that is, present and nonzero — the source
tests `if self.patch:`, so an explicit patch of 0 is dropped. -/
def patchSuffix (p : Option Int) : List Char :=
  match p with
  | some p => if p != 0 then '.' :: intChars p else []
  | none => []

/-- The `-status` part of the `__str__` suffix: appended only when
`self.status` is truthy in Python, that is, present and nonempty — the
source tests `if self.status:`, so an empty status tag is dropped. -/
def statusSuffix (st : Option String) : List Char :=
  match st with
  | some st => if st != "" then '-' :: st.data else []
  | none => []

/-- `Version.__str__` as a character list: always `major.minor.micro`, then
the truthiness-guarded patch and status suffixes. -/
def renderChars (v : Version) : List Char :=
  intChars v.major ++ '.' :: intChars v.minor ++ '.' :: intChars v.micro
    ++ patchSuffix v.patch ++ statusSuffix v.status

/-- `Version.__str__`. -/
def Version.render (v : Version) : String := String.mk (renderChars v)

/-! ## Comparison (Version.__cmp__) -/

/-- One Python value seen by `Version.__cmp__`: either another Version or a
value of any other type, which the isinstance test lumps together. -/
inductive PyValue where
  | version (v : Version)
  | nonVersion (tag : String)
deriving DecidableEq

/-- `max(0, x)` on the raw attribute, where the attribute may be `None`
(the undefined patch level): in Python 2 `None` orders below every int, so
`max(0, None) = 0`. -/
def floorPatch : Option Int → Int
  | none => 0
  | some p => max 0 p

/-- The floored attribute values of the comparison loop of
`Version.__cmp__`, in its iteration order major, minor, micro, patch. -/
def cmpKeys (v : Version) : List Int :=
  [max 0 v.major, max 0 v.minor, max 0 v.micro, floorPatch v.patch]

/-- The comparison loop body: return greater or less at the first differing
pair, fall through to the next attribute on a tie. -/
def cmpChain : List (Int × Int) → Ordering
  | [] => Ordering.eq
  | (x, y) :: rest =>
    if x > y then Ordering.gt else if x < y then Ordering.lt else cmpChain rest

/-- `Version.__cmp__` restricted to two Versions: the loop over
`("major", "minor", "micro", "patch")` with the `max(0, ...)` floor; the
status tags are never consulted and the fall-through result is equality. -/
def cmpVersion (a b : Version) : Ordering := cmpChain (List.zip (cmpKeys a) (cmpKeys b))

/-- `Version.__cmp__` in full: a non-Version operand short-circuits to `1`
before the attribute loop runs. -/
def pyCmp (self : Version) (other : PyValue) : Int :=
  match other with
  | PyValue.nonVersion _ => 1
  | PyValue.version o =>
    match cmpVersion self o with
    | Ordering.gt => 1
    | Ordering.lt => -1
    | Ordering.eq => 0

/-- Python 2 `==` on a classic class with `__cmp__`: true iff the comparison
result is zero. -/
def pyEq (v : Version) (x : PyValue) : Bool := pyCmp v x == 0

/-! ## The Requirement registry -/

/-- The feature identifiers of the Requirement registry
(src/stem/version.py, the `Requirement = stem.util.enum.Enum(...)` table). -/
inductive Feature where
  | GETINFO_CONFIG_TEXT
  | CONTROL_SOCKET
deriving DecidableEq

/-- The zero version, only used as an unreachable fallback below. -/
def zeroVersion : Version :=
  { major := 0, minor := 0, micro := 0, patch := none, status := none }

/-- The Requirement registry: each feature name bound to the Version built
from its string in the source table.  `stem.util.enum.Enum` only attaches
these values to constant names, so the registry is a fixed map from the two
feature names to their minimum Versions. -/
def Requirement (f : Feature) : Version :=
  match f with
  | Feature.GETINFO_CONFIG_TEXT => ((parseVersion ("0.2.2.7-alpha")).toOption).getD zeroVersion
  | Feature.CONTROL_SOCKET => ((parseVersion ("0.2.0.30")).toOption).getD zeroVersion

/-- Modelled from the spec: the sources ship no `isSupported` function (the
spec describes version gating built on the comparator; only the Requirement
table itself is in src/stem/version.py).  Per the spec words, the result is
true iff `compare(currentVersion, minimumVersion)` is not `less`. -/
def isSupported (f : Feature) (v : Version) : Bool :=
  cmpVersion v (Requirement f) != Ordering.lt

/-! ## Version discovery (get_system_tor_version) -/

/-- Python `str.startswith`. -/
def prefixCheck : List Char → List Char → Bool
  | [], _ => true
  | _ :: _, [] => false
  | a :: as, b :: bs => a == b && prefixCheck as bs

/-- `line.startswith(pre)`. -/
def pyStartswith (s pre : List Char) : Bool := prefixCheck pre s

/-- `line.endswith(suf)`. -/
def pyEndswith (s suf : List Char) : Bool := prefixCheck suf.reverse s.reverse

/-- The slice `last_line[12:-1]` taken under the guard that the line starts
with the 12-character prefix `"Tor version "` and ends with a period. -/
def sliceVersionStr (line : List Char) : List Char := (line.drop 12).dropLast

/-- The response handling of `get_system_tor_version` on the output lines of
the external `tor --version` invocation: empty output is an error; otherwise
the last line must start with `"Tor version "` and end with `"."`, and the
characters between are given to the Version constructor, whose parse error
is re-raised; every other line shape is an unexpected-response error. -/
def parseTorVersionOutput (output : List String) : Except String Version :=
  match output.getLast? with
  | none => Except.error ("tor --version command did not have any output")
  | some lastLine =>
    if pyStartswith lastLine.data (String.data ("Tor version "))
        && pyEndswith lastLine.data (String.data (".")) then
      parseVersion (String.mk (sliceVersionStr lastLine.data))
    else
      Except.error ("Unexpected response: " ++ lastLine)

/-- The process-wide VERSION_CACHE dict, keyed by the tor command string. -/
abbrev VersionCache := List (String × Version)

/-- Dict lookup in VERSION_CACHE. -/
def cacheLookup (cache : VersionCache) (key : String) : Option Version :=
  match cache.find? (fun p => p.1 == key) with
  | some p => some p.2
  | none => none

/-- One call of `get_system_tor_version`: `callResult` is the outcome of the
external `stem.util.system.call` collaborator (`none` models the OSError
path).  Returns the result, the cache afterwards, and whether the external
discovery step was invoked at all; a cached key returns the stored Version
before the call expression is ever reached. -/
def getSystemTorVersion (cache : VersionCache) (torCmd : String)
    (callResult : Option (List String)) : Except String Version × VersionCache × Bool :=
  match cacheLookup cache torCmd with
  | some v => (Except.ok v, cache, false)
  | none =>
    match callResult with
    | none => (Except.error ("OSError raised by the tor invocation"), cache, true)
    | some output =>
      match parseTorVersionOutput output with
      | Except.ok v => (Except.ok v, (torCmd, v) :: cache, true)
      | Except.error e => (Except.error e, cache, true)

/-! ## The Query fallback loop -/

/-- Modelled from the spec: stem.descriptor.remote, holding Query and its
`run` method, is not among the sources (only its integration tests under
src/test are).  One endpoint attempt is abstracted as its outcome: a
structurally valid parsed response, or a failure cause (timeout, transport
failure or parser rejection, which the spec treats alike for fallback). -/
inductive AttemptOutcome where
  | ok (records : List String)
  | fail (cause : String)
deriving DecidableEq

/-- Modelled from the spec: the terminal result of `Query.run` — either the
parsed records of the first structurally valid response, or
AllEndpointsExhausted carrying every recorded per-endpoint cause. -/
inductive QueryResult where
  | success (records : List String)
  | allEndpointsExhausted (causes : List String)
deriving DecidableEq

/-- Modelled from the spec: the ordered-attempt iteration of `Query.run`,
with the causes recorded so far; a success stops the loop, a failure is
recorded locally and the next endpoint is tried, and an exhausted candidate
list terminates with the aggregate failure. -/
def runQueryGo (causes : List String) : List AttemptOutcome → QueryResult
  | [] => QueryResult.allEndpointsExhausted causes
  | AttemptOutcome.ok rs :: _ => QueryResult.success rs
  | AttemptOutcome.fail c :: rest => runQueryGo (causes ++ [c]) rest

/-- Modelled from the spec: `Query.run` over the attempt outcomes of the
candidate endpoints in trial order. -/
def runQuery (attempts : List AttemptOutcome) : QueryResult := runQueryGo [] attempts

/-! ## Specification-side definitions, used to state the claims -/

/-- Whether an `Except` value is a success. -/
def isOkE {ε α : Type} : Except ε α → Bool
  | Except.ok _ => true
  | Except.error _ => false

/-- True when the list does not begin with a `[0-9]` character. -/
def headNotDigit : List Char → Bool
  | [] => true
  | c :: _ => !(isDigitCh c)

/-- The shape of what remains after the third digit group, status part: the
anchor `$` matches here (the remainder is empty or one trailing newline), or
a dash followed by non-whitespace characters (possibly none) after which
`$` matches. -/
def statusShape (t : List Char) : Prop :=
  atDollar t = true ∨
    ∃ st r, t = '-' :: (st ++ r) ∧ st.all isNonSpaceCh = true ∧ atDollar r = true

/-- The shape of what remains after the third digit group: an optional
patch part — one separator character (any non-newline character, since the
dot of the pattern is unescaped) and a nonempty digit run — followed by the
status part. -/
def tailShape (t : List Char) : Prop :=
  statusShape t ∨
    ∃ c ds r, t = c :: (ds ++ r) ∧ isDotAny c = true ∧ ds ≠ [] ∧
      ds.all isDigitCh = true ∧ statusShape r

/-- The full grammar the parser actually accepts, stated from the spec side
as a structural decomposition: three nonempty digit runs joined by arbitrary
single non-newline separator characters, then the optional patch and status
parts. -/
def versionShape (s : List Char) : Prop :=
  ∃ d1 c1 d2 c2 d3 t,
    s = d1 ++ c1 :: (d2 ++ c2 :: (d3 ++ t)) ∧
    d1 ≠ [] ∧ d1.all isDigitCh = true ∧ isDotAny c1 = true ∧
    d2 ≠ [] ∧ d2.all isDigitCh = true ∧ isDotAny c2 = true ∧
    d3 ≠ [] ∧ d3.all isDigitCh = true ∧ tailShape t

/-- A concrete Version value: `0.2.2.23-alpha`. -/
def vAlpha : Version :=
  { major := 0, minor := 2, micro := 2, patch := some 23, status := some ("alpha") }

/-- A concrete Version value: `0.2.2.23-rc`. -/
def vRc : Version :=
  { major := 0, minor := 2, micro := 2, patch := some 23, status := some ("rc") }

/-- A concrete Version value: `0.2.2.23`. -/
def vPlain : Version :=
  { major := 0, minor := 2, micro := 2, patch := some 23, status := none }

/-- The 4-tuple the spec says comparison is decided over: major, minor,
micro and patch-or-0, each with the `max(0, value)` floor. -/
def specKey (v : Version) : Int × Int × Int × Int :=
  (max 0 v.major, max 0 v.minor, max 0 v.micro, max 0 ((v.patch).getD 0))

/-- Comparison as the spec words it: component-wise left to right over the
4-tuple, the first differing component deciding the order. -/
def specLex4 (p q : Int × Int × Int × Int) : Ordering :=
  if p.1 < q.1 then Ordering.lt else if q.1 < p.1 then Ordering.gt
  else if p.2.1 < q.2.1 then Ordering.lt else if q.2.1 < p.2.1 then Ordering.gt
  else if p.2.2.1 < q.2.2.1 then Ordering.lt else if q.2.2.1 < p.2.2.1 then Ordering.gt
  else if p.2.2.2 < q.2.2.2 then Ordering.lt else if q.2.2.2 < p.2.2.2 then Ordering.gt
  else Ordering.eq

/-! ## Lemmas about the backtracking primitives -/

theorem optMap_isSome {α β : Type} (f : α → β) (o : Option α) :
    (o.map f).isSome = o.isSome := by
  cases o <;> rfl

theorem firstSome_cons_some {α β : Type} {f : α → Option β} {a : α} {b : β}
    (l : List α) (h : f a = some b) : firstSome f (a :: l) = some b := by
  simp [firstSome, h]

theorem firstSome_isSome {α β : Type} (f : α → Option β) :
    ∀ l : List α, (firstSome f l).isSome = true ↔ ∃ a ∈ l, (f a).isSome = true := by
  intro l
  induction l with
  | nil => simp [firstSome]
  | cons a l ih =>
    cases h : f a with
    | some b => simp [firstSome, h]
    | none =>
      simp only [firstSome, h, ih]
      constructor
      · rintro ⟨x, hx, hfx⟩
        exact ⟨x, List.mem_cons_of_mem a hx, hfx⟩
      · rintro ⟨x, hx, hfx⟩
        rcases List.mem_cons.mp hx with rfl | hx
        · rw [h] at hfx; cases hfx
        · exact ⟨x, hx, hfx⟩

theorem digitSplits_sound :
    ∀ {s : List Char} {p : List Char × List Char}, p ∈ digitSplits s →
      s = p.1 ++ p.2 ∧ p.1 ≠ [] ∧ p.1.all isDigitCh = true := by
  intro s
  induction s with
  | nil => intro p hp; simp [digitSplits] at hp
  | cons c cs ih =>
    intro p hp
    by_cases hc : isDigitCh c = true
    · simp only [digitSplits, hc, if_pos] at hp
      rcases List.mem_append.mp hp with hmem | hmem
      · rcases List.mem_map.mp hmem with ⟨q, hq, rfl⟩
        rcases ih hq with ⟨heq, hne, hall⟩
        simp only [List.cons_append, List.all_cons]
        exact ⟨by rw [← heq], by simp, by simp [hc, hall]⟩
      · simp at hmem
        subst hmem
        simp [hc]
    · simp [digitSplits, hc] at hp

theorem digitSplits_complete :
    ∀ {ds : List Char}, ds ≠ [] → ds.all isDigitCh = true →
      ∀ r : List Char, (ds, r) ∈ digitSplits (ds ++ r) := by
  intro ds
  induction ds with
  | nil => intro h; exact absurd rfl h
  | cons c cs ih =>
    intro _ hall r
    rw [List.all_cons, Bool.and_eq_true] at hall
    obtain ⟨hc, hcs⟩ := hall
    by_cases hne : cs = []
    · subst hne
      simp [digitSplits, hc]
    · have hmem := ih hne hcs r
      simp only [List.cons_append, digitSplits, hc, if_pos]
      exact List.mem_append.mpr (Or.inl (List.mem_map.mpr ⟨(cs, r), hmem, rfl⟩))

theorem digitSplits_head :
    ∀ {A t : List Char}, A ≠ [] → A.all isDigitCh = true → headNotDigit t = true →
      ∃ l, digitSplits (A ++ t) = (A, t) :: l := by
  intro A
  induction A with
  | nil => intro t h; exact absurd rfl h
  | cons c cs ih =>
    intro t _ hall ht
    rw [List.all_cons, Bool.and_eq_true] at hall
    obtain ⟨hc, hcs⟩ := hall
    by_cases hne : cs = []
    · subst hne
      have hnil : digitSplits t = [] := by
        cases t with
        | nil => rfl
        | cons x xs =>
          simp only [headNotDigit, Bool.not_eq_true'] at ht
          simp [digitSplits, ht]
      exact ⟨[], by simp [digitSplits, hc, hnil]⟩
    · rcases ih hne hcs ht with ⟨l, hl⟩
      refine ⟨(l.map (fun p => (c :: p.1, p.2))) ++ [([c], cs ++ t)], ?_⟩
      simp only [List.cons_append, digitSplits, hc, if_pos, List.append_eq]
      rw [hl]
      simp

theorem nonspaceSplits_sound :
    ∀ {s : List Char} {p : List Char × List Char}, p ∈ nonspaceSplits s →
      s = p.1 ++ p.2 ∧ p.1.all isNonSpaceCh = true := by
  intro s
  induction s with
  | nil => intro p hp; simp [nonspaceSplits] at hp; simp [hp]
  | cons c cs ih =>
    intro p hp
    by_cases hc : isNonSpaceCh c = true
    · simp only [nonspaceSplits, hc, if_pos] at hp
      rcases List.mem_append.mp hp with hmem | hmem
      · rcases List.mem_map.mp hmem with ⟨q, hq, rfl⟩
        rcases ih hq with ⟨heq, hall⟩
        exact ⟨by simp [← heq], by simp [hc, hall]⟩
      · simp at hmem
        subst hmem
        simp
    · simp only [nonspaceSplits, hc, if_neg, Bool.not_eq_true] at hp
      simp at hp
      subst hp
      simp

theorem nonspaceSplits_complete :
    ∀ {pre : List Char}, pre.all isNonSpaceCh = true →
      ∀ r : List Char, (pre, r) ∈ nonspaceSplits (pre ++ r) := by
  intro pre
  induction pre with
  | nil =>
    intro _ r
    cases r with
    | nil => simp [nonspaceSplits]
    | cons x xs =>
      by_cases hx : isNonSpaceCh x = true <;> simp [nonspaceSplits, hx]
  | cons c cs ih =>
    intro hall r
    rw [List.all_cons, Bool.and_eq_true] at hall
    obtain ⟨hc, hcs⟩ := hall
    have hmem := ih hcs r
    simp only [List.cons_append, nonspaceSplits, hc, if_pos]
    exact List.mem_append.mpr (Or.inl (List.mem_map.mpr ⟨(cs, r), hmem, rfl⟩))

/-! ## Characterizations of the matcher: success coincides with the grammar -/

theorem matchStatusTaken_isSome (s : List Char) :
    (matchStatusTaken s).isSome = true ↔
      ∃ st r, s = '-' :: (st ++ r) ∧ st.all isNonSpaceCh = true ∧ atDollar r = true := by
  cases s with
  | nil =>
    simp only [matchStatusTaken, Option.isSome_none, Bool.false_eq_true, false_iff]
    rintro ⟨st, r, h, _⟩
    cases h
  | cons c rest =>
    by_cases hc : c = '-'
    · subst hc
      simp only [matchStatusTaken, if_pos rfl, if_true]
      rw [firstSome_isSome]
      constructor
      · rintro ⟨p, hp, hfp⟩
        by_cases h2 : atDollar p.2 = true
        · rcases nonspaceSplits_sound hp with ⟨heq, hall⟩
          exact ⟨p.1, p.2, by rw [heq], hall, h2⟩
        · simp [h2] at hfp
      · rintro ⟨st, r, heq, hall, hdollar⟩
        injection heq with _ h2
        subst h2
        refine ⟨(st, r), nonspaceSplits_complete hall r, ?_⟩
        simp [hdollar]
    · simp only [matchStatusTaken, if_neg hc, Option.isSome_none, Bool.false_eq_true, false_iff]
      rintro ⟨st, r, heq, _⟩
      injection heq with h1 _
      exact hc h1

theorem matchStatusEnd_isSome (s : List Char) :
    (matchStatusEnd s).isSome = true ↔ statusShape s := by
  rw [matchStatusEnd]
  cases h : matchStatusTaken s with
  | some st =>
    simp only [Option.isSome_some, true_iff]
    exact Or.inr ((matchStatusTaken_isSome s).mp (by rw [h]; rfl))
  | none =>
    by_cases hdollar : atDollar s = true
    · rw [if_pos hdollar]
      simp only [Option.isSome_some, true_iff]
      exact Or.inl hdollar
    · rw [if_neg hdollar]
      simp only [Option.isSome_none, Bool.false_eq_true, false_iff]
      intro hs
      rcases hs with h2 | ⟨st, r, rfl, hall, hd⟩
      · exact hdollar h2
      · have h2 : (matchStatusTaken ('-' :: (st ++ r))).isSome = true :=
          (matchStatusTaken_isSome _).mpr ⟨st, r, rfl, hall, hd⟩
        rw [h] at h2
        exact Bool.noConfusion h2

theorem matchPatchTaken_isSome (s : List Char) :
    (matchPatchTaken s).isSome = true ↔
      ∃ c ds r, s = c :: (ds ++ r) ∧ isDotAny c = true ∧ ds ≠ [] ∧
        ds.all isDigitCh = true ∧ statusShape r := by
  cases s with
  | nil =>
    simp only [matchPatchTaken, Option.isSome_none, Bool.false_eq_true, false_iff]
    rintro ⟨c, ds, r, h, _⟩
    cases h
  | cons c rest =>
    by_cases hc : isDotAny c = true
    · simp only [matchPatchTaken, if_pos hc]
      rw [firstSome_isSome]
      constructor
      · rintro ⟨p, hp, hfp⟩
        rw [optMap_isSome] at hfp
        rcases digitSplits_sound hp with ⟨heq, hne, hall⟩
        exact ⟨c, p.1, p.2, by rw [heq], hc, hne, hall, (matchStatusEnd_isSome _).mp hfp⟩
      · rintro ⟨c2, ds, r, heq, hc2, hne, hall, hst⟩
        injection heq with _ h2
        subst h2
        refine ⟨(ds, r), digitSplits_complete hne hall r, ?_⟩
        rw [optMap_isSome]
        exact (matchStatusEnd_isSome r).mpr hst
    · simp only [matchPatchTaken, if_neg hc, Option.isSome_none, Bool.false_eq_true, false_iff]
      rintro ⟨c2, ds, r, heq, hc2, _⟩
      injection heq with h1 _
      subst h1
      exact hc hc2

theorem matchPatchTail_isSome (s : List Char) :
    (matchPatchTail s).isSome = true ↔ tailShape s := by
  rw [matchPatchTail]
  cases h : matchPatchTaken s with
  | some r =>
    simp only [Option.isSome_some, true_iff]
    exact Or.inr ((matchPatchTaken_isSome s).mp (by rw [h]; rfl))
  | none =>
    rw [optMap_isSome, matchStatusEnd_isSome, tailShape]
    constructor
    · exact Or.inl
    · rintro (hst | hpatch)
      · exact hst
      · have h2 : (matchPatchTaken s).isSome = true := (matchPatchTaken_isSome s).mpr hpatch
        rw [h] at h2
        exact Bool.noConfusion h2

theorem matchFrom3_isSome (s : List Char) :
    (matchFrom3 s).isSome = true ↔
      ∃ d t, s = d ++ t ∧ d ≠ [] ∧ d.all isDigitCh = true ∧ tailShape t := by
  rw [matchFrom3, firstSome_isSome]
  constructor
  · rintro ⟨p, hp, hfp⟩
    rw [optMap_isSome] at hfp
    rcases digitSplits_sound hp with ⟨heq, hne, hall⟩
    exact ⟨p.1, p.2, heq, hne, hall, (matchPatchTail_isSome _).mp hfp⟩
  · rintro ⟨d, t, rfl, hne, hall, htail⟩
    refine ⟨(d, t), digitSplits_complete hne hall t, ?_⟩
    rw [optMap_isSome]
    exact (matchPatchTail_isSome t).mpr htail

theorem sepThen_isSome {γ : Type} (k : List Char → Option γ) (s : List Char) :
    (sepThen k s).isSome = true ↔
      ∃ c r, s = c :: r ∧ isDotAny c = true ∧ (k r).isSome = true := by
  cases s with
  | nil =>
    simp only [sepThen, Option.isSome_none, Bool.false_eq_true, false_iff]
    rintro ⟨c, r, h, _⟩
    cases h
  | cons c r =>
    by_cases hc : isDotAny c = true
    · simp only [sepThen, if_pos hc]
      constructor
      · intro h
        exact ⟨c, r, rfl, hc, h⟩
      · rintro ⟨c2, r2, heq, hc2, hk⟩
        injection heq with h1 h2
        subst h1
        subst h2
        exact hk
    · simp only [sepThen, if_neg hc, Option.isSome_none, Bool.false_eq_true, false_iff]
      rintro ⟨c2, r2, heq, hc2, _⟩
      injection heq with h1 _
      subst h1
      exact hc hc2

theorem matchFrom2_isSome (s : List Char) :
    (matchFrom2 s).isSome = true ↔
      ∃ d c r, s = d ++ c :: r ∧ d ≠ [] ∧ d.all isDigitCh = true ∧
        isDotAny c = true ∧ (matchFrom3 r).isSome = true := by
  rw [matchFrom2, firstSome_isSome]
  constructor
  · rintro ⟨p, hp, hfp⟩
    rw [optMap_isSome, sepThen_isSome] at hfp
    obtain ⟨c, r, h2, hc, hk⟩ := hfp
    rcases digitSplits_sound hp with ⟨heq, hne, hall⟩
    exact ⟨p.1, c, r, by rw [heq, h2], hne, hall, hc, hk⟩
  · rintro ⟨d, c, r, rfl, hne, hall, hc, hk⟩
    refine ⟨(d, c :: r), digitSplits_complete hne hall (c :: r), ?_⟩
    rw [optMap_isSome, sepThen_isSome]
    exact ⟨c, r, rfl, hc, hk⟩

theorem reMatchVersion_isSome (s : List Char) :
    (reMatchVersion s).isSome = true ↔ versionShape s := by
  rw [reMatchVersion, firstSome_isSome, versionShape]
  constructor
  · rintro ⟨p, hp, hfp⟩
    rw [optMap_isSome, sepThen_isSome] at hfp
    obtain ⟨c1, r, h2, hc1, hk⟩ := hfp
    rcases digitSplits_sound hp with ⟨heq, hne, hall⟩
    rw [matchFrom2_isSome] at hk
    obtain ⟨d2, c2, r2, rfl, hne2, hall2, hc2, hk3⟩ := hk
    rw [matchFrom3_isSome] at hk3
    obtain ⟨d3, t, rfl, hne3, hall3, htail⟩ := hk3
    exact ⟨p.1, c1, d2, c2, d3, t, by rw [heq, h2], hne, hall, hc1, hne2, hall2,
      hc2, hne3, hall3, htail⟩
  · rintro ⟨d1, c1, d2, c2, d3, t, rfl, hne1, hall1, hc1, hne2, hall2, hc2, hne3, hall3, htail⟩
    refine ⟨(d1, c1 :: (d2 ++ c2 :: (d3 ++ t))), digitSplits_complete hne1 hall1 _, ?_⟩
    rw [optMap_isSome, sepThen_isSome]
    refine ⟨c1, d2 ++ c2 :: (d3 ++ t), rfl, hc1, ?_⟩
    rw [matchFrom2_isSome]
    refine ⟨d2, c2, d3 ++ t, rfl, hne2, hall2, hc2, ?_⟩
    rw [matchFrom3_isSome]
    exact ⟨d3, t, rfl, hne3, hall3, htail⟩

/-! ## The exact match on a plain three-component version string -/

theorem matchStatusEnd_nil : matchStatusEnd [] = some none := rfl

theorem matchPatchTail_nil : matchPatchTail [] = some (none, none) := rfl

theorem sepThen_cons {γ : Type} (k : List Char → Option γ) (c : Char) (r : List Char)
    (hc : isDotAny c = true) : sepThen k (c :: r) = k r := by
  simp [sepThen, hc]

theorem matchFrom3_exact {C : List Char} (hC : C ≠ []) (hallC : C.all isDigitCh = true) :
    matchFrom3 C = some (C, none, none) := by
  obtain ⟨l, hl⟩ := digitSplits_head (t := []) hC hallC rfl
  rw [List.append_nil] at hl
  rw [matchFrom3, hl]
  exact firstSome_cons_some l rfl

theorem matchFrom2_exact {B C : List Char} (hB : B ≠ []) (hallB : B.all isDigitCh = true)
    (hC : C ≠ []) (hallC : C.all isDigitCh = true) :
    matchFrom2 (B ++ '.' :: C) = some (B, C, none, none) := by
  obtain ⟨l, hl⟩ := digitSplits_head (t := '.' :: C) hB hallB rfl
  rw [matchFrom2, hl]
  apply firstSome_cons_some
  show (sepThen matchFrom3 ('.' :: C)).map (fun t => (B, t)) = _
  rw [sepThen_cons matchFrom3 '.' C (by decide), matchFrom3_exact hC hallC]
  rfl

theorem reMatchVersion_exact {A B C : List Char} (hA : A ≠ []) (hallA : A.all isDigitCh = true)
    (hB : B ≠ []) (hallB : B.all isDigitCh = true)
    (hC : C ≠ []) (hallC : C.all isDigitCh = true) :
    reMatchVersion (A ++ '.' :: (B ++ '.' :: C)) = some (A, B, C, none, none) := by
  obtain ⟨l, hl⟩ := digitSplits_head (t := '.' :: (B ++ '.' :: C)) hA hallA rfl
  rw [reMatchVersion, hl]
  apply firstSome_cons_some
  show (sepThen matchFrom2 ('.' :: (B ++ '.' :: C))).map (fun t => (A, t)) = _
  rw [sepThen_cons matchFrom2 '.' (B ++ '.' :: C) (by decide),
    matchFrom2_exact hB hallB hC hallC]
  rfl

/-! ## Decimal rendering and reading lemmas -/

theorem digitCh_toNat {d : Nat} (h : d < 10) : (digitCh d).toNat = 48 + d := by
  interval_cases d <;> decide

theorem isDigitCh_digitCh {d : Nat} (h : d < 10) : isDigitCh (digitCh d) = true := by
  interval_cases d <;> decide

theorem natCharsCore_acc (fuel : Nat) : ∀ (n : Nat) (acc : List Char),
    natCharsCore fuel n acc = natCharsCore fuel n [] ++ acc := by
  induction fuel with
  | zero => intro n acc; rfl
  | succ fuel ih =>
    intro n acc
    by_cases h : n < 10
    · simp [natCharsCore, h]
    · simp only [natCharsCore, if_neg h]
      rw [ih (n / 10) (digitCh (n % 10) :: acc), ih (n / 10) [digitCh (n % 10)]]
      simp

theorem natCharsCore_all (fuel : Nat) : ∀ n : Nat,
    (natCharsCore fuel n []).all isDigitCh = true := by
  induction fuel with
  | zero => intro n; rfl
  | succ fuel ih =>
    intro n
    have hmod : n % 10 < 10 := Nat.mod_lt n (by omega)
    by_cases h : n < 10
    · simp only [natCharsCore, if_pos h, List.all_cons, List.all_nil, Bool.and_true]
      exact isDigitCh_digitCh hmod
    · simp only [natCharsCore, if_neg h]
      rw [natCharsCore_acc, List.all_append]
      simp [ih (n / 10), isDigitCh_digitCh hmod]

theorem natChars_all (n : Nat) : (natChars n).all isDigitCh = true :=
  natCharsCore_all (n + 1) n

theorem natChars_ne_nil (n : Nat) : natChars n ≠ [] := by
  rw [natChars]
  by_cases h : n < 10
  · simp [natCharsCore, h]
  · simp only [natCharsCore, if_neg h]
    rw [natCharsCore_acc]
    simp

theorem digitsVal_concat (xs : List Char) (c : Char) :
    digitsVal (xs ++ [c]) = digitsVal xs * 10 + (c.toNat - 48) := by
  rw [digitsVal, digitsVal, List.foldl_append]
  rfl

theorem digitsVal_core (fuel : Nat) : ∀ n : Nat, n < fuel →
    digitsVal (natCharsCore fuel n []) = n := by
  induction fuel with
  | zero => intro n h; omega
  | succ fuel ih =>
    intro n h
    have hmod : n % 10 < 10 := Nat.mod_lt n (by omega)
    by_cases h10 : n < 10
    · simp only [natCharsCore, if_pos h10]
      have h1 : digitsVal [digitCh (n % 10)] = (digitCh (n % 10)).toNat - 48 := by
        rw [digitsVal]
        simp
      rw [h1, digitCh_toNat hmod]
      omega
    · simp only [natCharsCore, if_neg h10]
      have hdivlt : n / 10 < fuel := by
        have := Nat.div_lt_self (show 0 < n by omega) (show 1 < 10 by omega)
        omega
      rw [natCharsCore_acc, digitsVal_concat, ih (n / 10) hdivlt, digitCh_toNat hmod]
      omega

theorem digitsVal_natChars (n : Nat) : digitsVal (natChars n) = n :=
  digitsVal_core (n + 1) n (by omega)

theorem intChars_natCast (n : Nat) : intChars ((n : Nat) : Int) = natChars n := by
  rw [intChars, if_neg (by omega)]
  congr 1

theorem strMk_append (xs ys : List Char) :
    String.mk xs ++ String.mk ys = String.mk (xs ++ ys) := rfl

/-! ## Lemmas about the comparison chain -/

theorem cmpChain_cons (x y : Int) (l : List (Int × Int)) :
    cmpChain ((x, y) :: l) =
      if x > y then Ordering.gt else if x < y then Ordering.lt else cmpChain l := rfl

theorem cmpChain_notGt (x y : Int) (l : List (Int × Int)) :
    (cmpChain ((x, y) :: l) ≠ Ordering.gt) ↔
      (x < y ∨ (x = y ∧ cmpChain l ≠ Ordering.gt)) := by
  rw [cmpChain_cons]
  rcases lt_trichotomy x y with h | h | h
  · rw [if_neg (by omega), if_pos h]
    constructor
    · intro _; exact Or.inl h
    · intro _ hcontra; exact Ordering.noConfusion hcontra
  · subst h
    rw [if_neg (by omega), if_neg (by omega)]
    constructor
    · intro hl; exact Or.inr ⟨rfl, hl⟩
    · rintro (hlt | ⟨_, hl⟩)
      · omega
      · exact hl
  · rw [if_pos h]
    constructor
    · intro hcontra; exact absurd rfl hcontra
    · rintro (hlt | ⟨heq, _⟩) <;> exfalso <;> omega

theorem cmpChain_zip_refl : ∀ xs : List Int, cmpChain (List.zip xs xs) = Ordering.eq := by
  intro xs
  induction xs with
  | nil => rfl
  | cons x xs ih =>
    rw [List.zip_cons_cons, cmpChain_cons, if_neg (by omega), if_neg (by omega)]
    exact ih

theorem cmpChain_zip_eq_iff : ∀ xs ys : List Int, xs.length = ys.length →
    (cmpChain (List.zip xs ys) = Ordering.eq ↔ xs = ys) := by
  intro xs
  induction xs with
  | nil =>
    intro ys h
    cases ys with
    | nil => exact ⟨fun _ => rfl, fun _ => rfl⟩
    | cons y ys => simp at h
  | cons x xs ih =>
    intro ys h
    cases ys with
    | nil => simp at h
    | cons y ys =>
      rw [List.zip_cons_cons, cmpChain_cons]
      have hlen : xs.length = ys.length := by simpa using h
      rcases lt_trichotomy x y with hxy | hxy | hxy
      · rw [if_neg (by omega), if_pos hxy]
        constructor
        · intro hcontra; exact Ordering.noConfusion hcontra
        · intro heq; injection heq with h1 _; exfalso; omega
      · subst hxy
        rw [if_neg (by omega), if_neg (by omega), ih ys hlen]
        constructor
        · intro h2; rw [h2]
        · intro h2
          exact ((List.cons.injEq x xs x ys) ▸ h2).2
      · rw [if_pos hxy]
        constructor
        · intro hcontra; exact Ordering.noConfusion hcontra
        · intro heq; injection heq with h1 _; exfalso; omega

theorem cmpChain_zip_trans : ∀ xs ys zs : List Int,
    xs.length = ys.length → ys.length = zs.length →
    cmpChain (List.zip xs ys) ≠ Ordering.gt → cmpChain (List.zip ys zs) ≠ Ordering.gt →
    cmpChain (List.zip xs zs) ≠ Ordering.gt := by
  intro xs
  induction xs with
  | nil =>
    intro ys zs h1 h2 _ _
    cases ys with
    | nil =>
      cases zs with
      | nil => decide
      | cons z zs => simp at h2
    | cons y ys => simp at h1
  | cons x xs ih =>
    intro ys zs h1 h2 hxy hyz
    cases ys with
    | nil => simp at h1
    | cons y ys =>
      cases zs with
      | nil => simp at h2
      | cons z zs =>
        rw [List.zip_cons_cons, cmpChain_notGt] at hxy hyz ⊢
        have hl1 : xs.length = ys.length := by simpa using h1
        have hl2 : ys.length = zs.length := by simpa using h2
        rcases hxy with hlt1 | ⟨heq1, htail1⟩
        · rcases hyz with hlt2 | ⟨heq2, _⟩
          · exact Or.inl (by omega)
          · exact Or.inl (by omega)
        · rcases hyz with hlt2 | ⟨heq2, htail2⟩
          · exact Or.inl (by omega)
          · exact Or.inr ⟨by omega, ih ys zs hl1 hl2 htail1 htail2⟩

theorem floorPatch_getD (p : Option Int) : floorPatch p = max 0 (p.getD 0) := by
  cases p with
  | none => simp [floorPatch]
  | some x => rfl

theorem cmpChain_lex4 (x1 x2 x3 x4 y1 y2 y3 y4 : Int) :
    cmpChain [(x1, y1), (x2, y2), (x3, y3), (x4, y4)] =
      specLex4 (x1, x2, x3, x4) (y1, y2, y3, y4) := by
  simp only [cmpChain_cons, cmpChain, specLex4]
  split_ifs <;> first | rfl | (exfalso; omega)

/-! ## Python startswith and endswith -/

theorem prefixCheck_iff : ∀ pre s : List Char,
    prefixCheck pre s = true ↔ ∃ t, s = pre ++ t := by
  intro pre
  induction pre with
  | nil => intro s; simp [prefixCheck]
  | cons a as ih =>
    intro s
    cases s with
    | nil =>
      simp only [prefixCheck, Bool.false_eq_true, false_iff]
      rintro ⟨t, h⟩
      cases h
    | cons b bs =>
      simp only [prefixCheck, Bool.and_eq_true, beq_iff_eq]
      rw [ih bs]
      constructor
      · rintro ⟨rfl, t, rfl⟩
        exact ⟨t, rfl⟩
      · rintro ⟨t, heq⟩
        injection heq with h1 h2
        exact ⟨h1.symm, t, h2⟩

theorem pyStartswith_iff (s pre : List Char) :
    pyStartswith s pre = true ↔ ∃ t, s = pre ++ t := by
  rw [pyStartswith, prefixCheck_iff]

theorem pyEndswith_iff (s suf : List Char) :
    pyEndswith s suf = true ↔ ∃ t, s = t ++ suf := by
  rw [pyEndswith, prefixCheck_iff]
  constructor
  · rintro ⟨t, ht⟩
    refine ⟨t.reverse, ?_⟩
    have h2 := congrArg List.reverse ht
    simpa [List.reverse_append] using h2
  · rintro ⟨t, rfl⟩
    exact ⟨t.reverse, by simp [List.reverse_append]⟩

/-! ## Helper lemmas assembling the claims -/

theorem strMk_data (s : String) : String.mk s.data = s := rfl

theorem parseVersion_threeComp {A B C : List Char}
    (hA : A ≠ []) (hallA : A.all isDigitCh = true)
    (hB : B ≠ []) (hallB : B.all isDigitCh = true)
    (hC : C ≠ []) (hallC : C.all isDigitCh = true) :
    parseVersion (String.mk (A ++ '.' :: (B ++ '.' :: C))) =
      Except.ok { major := (digitsVal A : Int), minor := (digitsVal B : Int),
                  micro := (digitsVal C : Int), patch := none, status := none } := by
  have h := reMatchVersion_exact hA hallA hB hallB hC hallC
  show (match reMatchVersion (A ++ '.' :: (B ++ '.' :: C)) with
    | some g => Except.ok (versionOfGroups g)
    | none => Except.error (String.mk (A ++ '.' :: (B ++ '.' :: C)) ++
        " is not a properly formatted tor version")) = _
  rw [h]
  rfl

theorem render_threeComp (a b c : Nat) :
    Version.render { major := ((a : Nat) : Int), minor := ((b : Nat) : Int),
                     micro := ((c : Nat) : Int), patch := none, status := none } =
      String.mk (natChars a ++ '.' :: (natChars b ++ '.' :: natChars c)) := by
  rw [Version.render, renderChars]
  simp only [intChars_natCast, patchSuffix, statusSuffix]
  simp [List.append_assoc]

theorem runQueryGo_fails (causes : List String) : ∀ acc : List String,
    runQueryGo acc (causes.map AttemptOutcome.fail) =
      QueryResult.allEndpointsExhausted (acc ++ causes) := by
  induction causes with
  | nil => intro acc; simp [runQueryGo]
  | cons c cs ih =>
    intro acc
    simp only [List.map_cons, runQueryGo]
    rw [ih (acc ++ [c])]
    simp

theorem allFail_map : ∀ attempts : List AttemptOutcome,
    (∀ a ∈ attempts, ∃ cause, a = AttemptOutcome.fail cause) →
    ∃ causes : List String, attempts = causes.map AttemptOutcome.fail := by
  intro attempts
  induction attempts with
  | nil => intro _; exact ⟨[], rfl⟩
  | cons a rest ih =>
    intro h
    obtain ⟨c, hc⟩ := h a (List.mem_cons_self a rest)
    obtain ⟨cs, hcs⟩ := ih (fun x hx => h x (List.mem_cons_of_mem a hx))
    exact ⟨c :: cs, by rw [List.map_cons, ← hc, ← hcs]⟩

theorem strData_append (s t : String) : (s ++ t).data = s.data ++ t.data := rfl

theorem dotData : ("." : String).data = ['.'] := rfl

theorem strExt (s t : String) (h : s.data = t.data) : s = t := by
  have h2 := congrArg String.mk h
  rwa [strMk_data, strMk_data] at h2

theorem dropAppend : ∀ (l₁ l₂ : List Char), (l₁ ++ l₂).drop l₁.length = l₂ := by
  intro l₁
  induction l₁ with
  | nil => intro l₂; rfl
  | cons x xs ih => intro l₂; exact ih l₂

theorem dropLastSingle : ∀ (l : List Char) (c : Char), (l ++ [c]).dropLast = l := by
  intro l
  induction l with
  | nil => intro c; rfl
  | cons x xs ih =>
    intro c
    cases xs with
    | nil => rfl
    | cons y ys =>
      show x :: ((y :: ys) ++ [c]).dropLast = x :: (y :: ys)
      rw [ih c]

theorem appendSingleLast {α : Type} (xs q : List α) (c d : α)
    (h : xs ++ [c] = q ++ [d]) : c = d := by
  have h2 := congrArg (fun l => l.reverse.head?) h
  simp [List.reverse_append] at h2
  exact h2

theorem patchSuffix_falsy {p : Option Int} (hp : p = none ∨ p = some 0) :
    patchSuffix p = [] := by
  rcases hp with h | h <;> rw [h] <;> simp [patchSuffix]

theorem patchSuffix_truthy {p : Int} (hp : p ≠ 0) :
    patchSuffix (some p) = '.' :: intChars p := by
  simp [patchSuffix, hp]

theorem statusSuffix_falsy {st : Option String} (hs : st = none ∨ st = some ("")) :
    statusSuffix st = [] := by
  rcases hs with h | h <;> rw [h] <;> simp [statusSuffix]

theorem statusSuffix_truthy {st : String} (hs : st ≠ "") :
    statusSuffix (some st) = '-' :: st.data := by
  simp [statusSuffix, hs]

/-! ## The claims -/

/-- Claim C1: for every pair of Versions a and b, compare(a, b) is decided
component-wise left to right over the 4-tuple (major, minor, micro,
patch-treated-as-0-when-absent), with a max(0, value) floor applied to each
component, and the first differing component decides the order; status never
participates, so two versions differing only in status compare equal, and a
version with absent patch equals the same version with explicit patch 0
(concretely: 0.2.2.23-alpha equals 0.2.2.23-rc, and 0.2.2 equals 0.2.2.0). -/
theorem versionCmp_componentwise (a b : Version) :
    cmpVersion a b = specLex4 (specKey a) (specKey b) ∧
    (a.major = b.major → a.minor = b.minor → a.micro = b.micro → a.patch = b.patch →
      cmpVersion a b = Ordering.eq) ∧
    (a.major = b.major → a.minor = b.minor → a.micro = b.micro →
      a.patch = none → b.patch = some 0 → cmpVersion a b = Ordering.eq) ∧
    ((parseVersion ("0.2.2.23-alpha")).toOption.bind (fun va =>
      (parseVersion ("0.2.2.23-rc")).toOption.map (fun vb => cmpVersion va vb))) =
        some Ordering.eq ∧
    ((parseVersion ("0.2.2")).toOption.bind (fun va =>
      (parseVersion ("0.2.2.0")).toOption.map (fun vb => cmpVersion va vb))) =
        some Ordering.eq := by
  refine ⟨?_, ?_, ?_, by rfl, by rfl⟩
  · have hk : ∀ v : Version, cmpKeys v =
        [max 0 v.major, max 0 v.minor, max 0 v.micro, max 0 ((v.patch).getD 0)] := by
      intro v
      rw [cmpKeys, floorPatch_getD]
    rw [cmpVersion, hk a, hk b, specKey, specKey, List.zip_cons_cons, List.zip_cons_cons,
      List.zip_cons_cons, List.zip_cons_cons, List.zip_nil_right]
    exact cmpChain_lex4 _ _ _ _ _ _ _ _
  · intro h1 h2 h3 h4
    have hkeq : cmpKeys a = cmpKeys b := by rw [cmpKeys, cmpKeys, h1, h2, h3, h4]
    rw [cmpVersion, hkeq]
    exact cmpChain_zip_refl _
  · intro h1 h2 h3 h4 h5
    have hkeq : cmpKeys a = cmpKeys b := by
      rw [cmpKeys, cmpKeys, h1, h2, h3, h4, h5]
      simp [floorPatch]
    rw [cmpVersion, hkeq]
    exact cmpChain_zip_refl _

/-- Claim C1 witness: the theorem applied to concrete versions differing only
in status, and to an absent patch against an explicit patch 0. -/
theorem versionCmp_componentwise_witness :
    cmpVersion vAlpha vRc = Ordering.eq ∧
    cmpVersion { major := 1, minor := 2, micro := 3, patch := none, status := none }
      { major := 1, minor := 2, micro := 3, patch := some 0, status := none } =
        Ordering.eq :=
  ⟨(versionCmp_componentwise vAlpha vRc).2.1 rfl rfl rfl rfl,
   (versionCmp_componentwise _ _).2.2.1 rfl rfl rfl rfl rfl⟩

/-- Claim C2: compare restricted to Versions is a total order over the
floored 4-tuple: reflexive-equal; if compare(a, b) is equal then
compare(b, a) is equal and the floored 4-tuples coincide; and not-greater is
transitive. -/
theorem versionCmp_totalOrder (a b c : Version) :
    cmpVersion a a = Ordering.eq ∧
    (cmpVersion a b = Ordering.eq → cmpVersion b a = Ordering.eq ∧ specKey a = specKey b) ∧
    (cmpVersion a b ≠ Ordering.gt → cmpVersion b c ≠ Ordering.gt →
      cmpVersion a c ≠ Ordering.gt) := by
  have hlen : ∀ v : Version, (cmpKeys v).length = 4 := fun v => rfl
  refine ⟨?_, ?_, ?_⟩
  · rw [cmpVersion]
    exact cmpChain_zip_refl _
  · intro h
    rw [cmpVersion] at h
    have hkeq : cmpKeys a = cmpKeys b :=
      (cmpChain_zip_eq_iff _ _ (by rw [hlen, hlen])).mp h
    constructor
    · rw [cmpVersion, hkeq]
      exact cmpChain_zip_refl _
    · have hkeq2 := hkeq
      rw [cmpKeys, cmpKeys] at hkeq2
      injection hkeq2 with e1 hkeq2
      injection hkeq2 with e2 hkeq2
      injection hkeq2 with e3 hkeq2
      injection hkeq2 with e4 _
      rw [specKey, specKey, ← floorPatch_getD, ← floorPatch_getD, e1, e2, e3, e4]
  · intro h1 h2
    rw [cmpVersion] at h1 h2 ⊢
    exact cmpChain_zip_trans _ _ _ (by rw [hlen, hlen]) (by rw [hlen, hlen]) h1 h2

/-- Claim C2 witness: the theorem applied to concrete versions, each
hypothesis discharged by evaluation. -/
theorem versionCmp_totalOrder_witness :
    (cmpVersion vRc vAlpha = Ordering.eq ∧ specKey vAlpha = specKey vRc) ∧
    cmpVersion vAlpha vPlain ≠ Ordering.gt :=
  ⟨(versionCmp_totalOrder vAlpha vRc vPlain).2.1 (by decide),
   (versionCmp_totalOrder vAlpha vRc vPlain).2.2 (by decide) (by decide)⟩

/-- Claim C3: for every feature in the Requirement registry and every
Version v, isSupported(feature, v) is true iff compare(v, minimumVersion)
is not less; for CONTROL_SOCKET (minimum 0.2.0.30) the result is false for
0.1.9.9 and true for 0.2.0.30 and 0.2.0.31. -/
theorem isSupported_iff_not_less :
    (∀ (f : Feature) (v : Version),
      isSupported f v = true ↔ cmpVersion v (Requirement f) ≠ Ordering.lt) ∧
    (parseVersion ("0.1.9.9")).map (isSupported Feature.CONTROL_SOCKET) =
      Except.ok false ∧
    (parseVersion ("0.2.0.30")).map (isSupported Feature.CONTROL_SOCKET) =
      Except.ok true ∧
    (parseVersion ("0.2.0.31")).map (isSupported Feature.CONTROL_SOCKET) =
      Except.ok true := by
  refine ⟨?_, by rfl, by rfl, by rfl⟩
  intro f v
  rw [isSupported]
  constructor
  · intro h hcontra
    rw [hcontra] at h
    exact Bool.noConfusion h
  · intro h
    cases hcmp : cmpVersion v (Requirement f) with
    | lt => exact absurd hcmp h
    | eq => rfl
    | gt => rfl

/-- Claim C4 counterexample: the claim states that every string deviating
from the grammar with a nonempty status tag, including "1.2.3-", fails to
parse; in the code the status group is `(-\S*)?` with a star, so "1.2.3-"
parses, with an empty status tag. -/
theorem parseVersion_dashOnly_ok :
    parseVersion ("1.2.3-") =
      Except.ok { major := 1, minor := 2, micro := 3, patch := none,
                  status := some ("") } := by
  rfl

/-- Claim C4 (amended): parsing succeeds exactly on strings matching the
pattern as written in the source, where the separator dots are unescaped
(they match any single non-newline character), the status after the dash
may be empty, and the final anchor also accepts one trailing newline:
"1.2" and "a.b.c" still fail, and a failure is reported as a parse error
naming the offending string, but "1.2.3-" succeeds with an empty status,
"1a2b3" succeeds with arbitrary separator characters, and a trailing
newline as in "1.2.3\n" is tolerated. -/
theorem parseVersion_grammar (s : String) :
    (isOkE (parseVersion s) = true ↔ versionShape s.data) ∧
    (isOkE (parseVersion s) = false →
      parseVersion s = Except.error (s ++ " is not a properly formatted tor version")) ∧
    isOkE (parseVersion ("1.2")) = false ∧
    isOkE (parseVersion ("a.b.c")) = false ∧
    isOkE (parseVersion ("1.2.3-")) = true ∧
    parseVersion ("1a2b3") =
      Except.ok { major := 1, minor := 2, micro := 3, patch := none, status := none } ∧
    parseVersion ("1.2.3\n") =
      Except.ok { major := 1, minor := 2, micro := 3, patch := none, status := none } := by
  have hunfold : parseVersion s = (match reMatchVersion s.data with
      | some g => Except.ok (versionOfGroups g)
      | none => Except.error (s ++ " is not a properly formatted tor version")) := rfl
  refine ⟨?_, ?_, by rfl, by rfl, by rfl, by rfl, by rfl⟩
  · rw [hunfold, ← reMatchVersion_isSome]
    cases h : reMatchVersion s.data with
    | some g => simp [isOkE]
    | none => simp [isOkE]
  · rw [hunfold]
    cases h : reMatchVersion s.data with
    | some g => intro hfalse; simp [isOkE] at hfalse
    | none => intro _; rfl

/-- Claim C4 witness: the amended theorem applied at "1.2", its hypothesis
discharged by evaluation. -/
theorem parseVersion_grammar_witness :
    parseVersion ("1.2") =
      Except.error ("1.2" ++ " is not a properly formatted tor version") :=
  (parseVersion_grammar ("1.2")).2.1 (by rfl)

/-- Claim C5 counterexample: the claim states that a Version parsed from
"0.2.2.23.0" still renders the ".0", so that "0.2.2.23" and "0.2.2.23.0"
render differently; in the code "0.2.2.23.0" does not even parse (the
pattern allows at most four numeric components), and an explicit patch 0
that does parse, as in "0.2.2.0", is dropped by the `if self.patch:`
truthiness test, rendering identically to "0.2.2". -/
theorem renderPatchZero_counterexample :
    isOkE (parseVersion ("0.2.2.23.0")) = false ∧
    (parseVersion ("0.2.2.0")).map Version.render = Except.ok ("0.2.2") ∧
    (parseVersion ("0.2.2")).map Version.render = Except.ok ("0.2.2") := by
  exact ⟨by rfl, by rfl, by rfl⟩

/-- Claim C5 (amended): toString always renders major.minor.micro, and the
rendered string is completely determined by the truthiness of the patch and
status attributes: .patch is appended exactly when patch is present and
nonzero and -status exactly when status is present and nonempty — in each
of the four truthiness combinations the whole rendered string is given, so
an explicit patch 0 or an empty status tag is never rendered and a truthy
value always is. -/
theorem render_presence (v : Version) :
    (∃ t, Version.render v =
      String.mk (intChars v.major ++ '.' ::
        (intChars v.minor ++ '.' :: (intChars v.micro ++ t)))) ∧
    ((v.patch = none ∨ v.patch = some 0) → (v.status = none ∨ v.status = some ("")) →
      Version.render v =
        String.mk (intChars v.major ++ '.' ::
          (intChars v.minor ++ '.' :: intChars v.micro))) ∧
    (∀ p, v.patch = some p → p ≠ 0 → (v.status = none ∨ v.status = some ("")) →
      Version.render v =
        String.mk (intChars v.major ++ '.' :: (intChars v.minor ++ '.' ::
          (intChars v.micro ++ '.' :: intChars p)))) ∧
    ((v.patch = none ∨ v.patch = some 0) → ∀ st, v.status = some st → st ≠ "" →
      Version.render v =
        String.mk (intChars v.major ++ '.' :: (intChars v.minor ++ '.' ::
          (intChars v.micro ++ '-' :: st.data)))) ∧
    (∀ p, v.patch = some p → p ≠ 0 → ∀ st, v.status = some st → st ≠ "" →
      Version.render v =
        String.mk (intChars v.major ++ '.' :: (intChars v.minor ++ '.' ::
          (intChars v.micro ++ '.' :: (intChars p ++ '-' :: st.data))))) := by
  refine ⟨?_, ?_, ?_, ?_, ?_⟩
  · refine ⟨patchSuffix v.patch ++ statusSuffix v.status, ?_⟩
    rw [Version.render, renderChars]
    simp [List.append_assoc]
  · intro hp hs
    rw [Version.render, renderChars, patchSuffix_falsy hp, statusSuffix_falsy hs]
    simp
  · intro p hp hpne hs
    rw [Version.render, renderChars, hp, patchSuffix_truthy hpne, statusSuffix_falsy hs]
    simp [List.append_assoc]
  · intro hp st hst hstne
    rw [Version.render, renderChars, hst, patchSuffix_falsy hp, statusSuffix_truthy hstne]
    simp [List.append_assoc]
  · intro p hp hpne st hst hstne
    rw [Version.render, renderChars, hp, hst, patchSuffix_truthy hpne,
      statusSuffix_truthy hstne]
    simp [List.append_assoc]

/-- Claim C5 witness: the amended theorem applied to a version with an
explicit patch 0 (dropped) and to one with truthy patch and status (both
rendered), every hypothesis discharged at the concrete values. -/
theorem render_presence_witness :
    Version.render { major := 0, minor := 2, micro := 2, patch := some 0, status := none } =
      String.mk (intChars 0 ++ '.' :: (intChars 2 ++ '.' :: intChars 2)) ∧
    Version.render vAlpha =
      String.mk (intChars 0 ++ '.' :: (intChars 2 ++ '.' ::
        (intChars 2 ++ '.' :: (intChars 23 ++ '-' :: ("alpha").data)))) :=
  ⟨(render_presence _).2.1 (Or.inr rfl) (Or.inl rfl),
   (render_presence vAlpha).2.2.2.2 23 rfl (by decide) ("alpha") rfl (by decide)⟩

/-- Claim C6: for every string of the form a.b.c with a, b, c nonnegative
integers (canonical decimal renderings) and no optional parts, parsing
succeeds and rendering the parsed Version reproduces the input string. -/
theorem parse_render_roundtrip (a b c : Nat) :
    (parseVersion (natStr a ++ "." ++ natStr b ++ "." ++ natStr c)).map Version.render =
      Except.ok (natStr a ++ "." ++ natStr b ++ "." ++ natStr c) := by
  have hstr : natStr a ++ "." ++ natStr b ++ "." ++ natStr c =
      String.mk (natChars a ++ '.' :: (natChars b ++ '.' :: natChars c)) := by
    rw [natStr, natStr, natStr, show ("." : String) = String.mk (['.']) from rfl,
      strMk_append, strMk_append, strMk_append, strMk_append]
    simp
  rw [hstr, parseVersion_threeComp (natChars_ne_nil a) (natChars_all a)
    (natChars_ne_nil b) (natChars_all b) (natChars_ne_nil c) (natChars_all c)]
  simp only [Except.map]
  rw [digitsVal_natChars, digitsVal_natChars, digitsVal_natChars, render_threeComp]

/-- Claim C7 counterexample: the claim states that discovery also recognizes
a status line embedding "Tor v<version>." (the second shape); the code only
accepts a last line of the exact form "Tor version <version>.", so the
status-line shape alone is rejected with an unexpected-response error. -/
theorem torVersionOutput_statusLine_rejected :
    parseTorVersionOutput
        ["Oct 21 07:19:27.438 [notice] Tor v0.2.1.30. This is experimental software. Do not rely on it for strong anonymity. (Running on Linux i686)"] =
      Except.error ("Unexpected response: " ++
        "Oct 21 07:19:27.438 [notice] Tor v0.2.1.30. This is experimental software. Do not rely on it for strong anonymity. (Running on Linux i686)") := by
  rfl

/-- Claim C7 (amended): version discovery recognizes exactly one textual
response shape — the last output line being "Tor version <version>." with
the trailing period required, in which case the characters in between go to
the Version parser and its verdict is surfaced as is; any other last line,
and the case of no output at all, fail immediately with an error. -/
theorem torVersionOutput_shape (output : List String) :
    (output = [] →
      parseTorVersionOutput output =
        Except.error ("tor --version command did not have any output")) ∧
    (∀ last, output.getLast? = some last →
      (∀ mid : String, last = "Tor version " ++ mid ++ "." →
        parseTorVersionOutput output = parseVersion mid) ∧
      ((∀ mid : String, last ≠ "Tor version " ++ mid ++ ".") →
        parseTorVersionOutput output =
          Except.error ("Unexpected response: " ++ last))) := by
  have hunfold : parseTorVersionOutput output = (match output.getLast? with
      | none => Except.error ("tor --version command did not have any output")
      | some lastLine =>
        if pyStartswith lastLine.data (String.data ("Tor version "))
            && pyEndswith lastLine.data (String.data (".")) then
          parseVersion (String.mk (sliceVersionStr lastLine.data))
        else
          Except.error ("Unexpected response: " ++ lastLine)) := rfl
  constructor
  · intro hnil
    subst hnil
    rfl
  · intro last hlast
    rw [hunfold, hlast]
    constructor
    · intro mid heq
      have hdata : last.data = String.data ("Tor version ") ++ (mid.data ++ ['.']) := by
        rw [heq, strData_append, strData_append]
        simp [List.append_assoc, dotData]
      have hstart : pyStartswith last.data (String.data ("Tor version ")) = true :=
        (pyStartswith_iff _ _).mpr ⟨mid.data ++ ['.'], hdata⟩
      have hend : pyEndswith last.data (String.data (".")) = true := by
        refine (pyEndswith_iff _ _).mpr ⟨String.data ("Tor version ") ++ mid.data, ?_⟩
        rw [hdata]
        simp [List.append_assoc, dotData]
      have hcond : (pyStartswith last.data (String.data ("Tor version "))
          && pyEndswith last.data (String.data ("."))) = true := by
        rw [hstart, hend]
        rfl
      have hslice : sliceVersionStr last.data = mid.data := by
        rw [sliceVersionStr, hdata]
        have hdrop := dropAppend (String.data ("Tor version ")) (mid.data ++ ['.'])
        rw [show (String.data ("Tor version ")).length = 12 from rfl] at hdrop
        rw [hdrop, dropLastSingle]
      show (if (pyStartswith last.data (String.data ("Tor version "))
            && pyEndswith last.data (String.data ("."))) = true then
          parseVersion (String.mk (sliceVersionStr last.data))
        else Except.error ("Unexpected response: " ++ last)) = parseVersion mid
      rw [if_pos hcond, hslice, strMk_data]
    · intro hnot
      by_cases hguard : (pyStartswith last.data (String.data ("Tor version "))
          && pyEndswith last.data (String.data ("."))) = true
      · exfalso
        rw [Bool.and_eq_true] at hguard
        obtain ⟨hpre, hsuf⟩ := hguard
        rw [pyStartswith_iff] at hpre
        rw [pyEndswith_iff] at hsuf
        obtain ⟨t, ht⟩ := hpre
        obtain ⟨q, hq⟩ := hsuf
        rw [dotData] at hq
        rcases List.eq_nil_or_concat t with rfl | ⟨t2, c, rfl⟩
        · rw [List.append_nil] at ht
          have hsplit : String.data ("Tor version ") =
              String.data ("Tor version") ++ [' '] := by decide
          have hcontra : ' ' = '.' := by
            apply appendSingleLast (String.data ("Tor version")) q
            rw [← hsplit, ← ht]
            exact hq
          exact absurd hcontra (by decide)
        · rw [List.concat_eq_append] at ht
          have heq2 : (String.data ("Tor version ") ++ t2) ++ [c] = q ++ ['.'] := by
            rw [List.append_assoc, ← ht]
            exact hq
          have hc : c = '.' := appendSingleLast _ _ _ _ heq2
          subst hc
          apply hnot (String.mk t2)
          apply strExt
          rw [ht, strData_append, strData_append]
          simp [List.append_assoc, dotData]
      · show (if (pyStartswith last.data (String.data ("Tor version "))
              && pyEndswith last.data (String.data ("."))) = true then
            parseVersion (String.mk (sliceVersionStr last.data))
          else Except.error ("Unexpected response: " ++ last)) =
            Except.error ("Unexpected response: " ++ last)
        rw [if_neg hguard]

/-- Claim C7 witness: the amended theorem applied to a concrete recognized
output and to a concrete rejected one. -/
theorem torVersionOutput_shape_witness :
    parseTorVersionOutput ["Tor version 0.2.1.30."] = parseVersion ("0.2.1.30") ∧
    parseTorVersionOutput ["junk"] = Except.error ("Unexpected response: " ++ "junk") := by
  constructor
  · exact ((torVersionOutput_shape (["Tor version 0.2.1.30."])).2
      ("Tor version 0.2.1.30.") rfl).1 ("0.2.1.30") (by rfl)
  · refine ((torVersionOutput_shape (["junk"])).2 ("junk") rfl).2 ?_
    intro mid hcontra
    have hd := congrArg String.data hcontra
    rw [strData_append, strData_append, dotData] at hd
    have hsplit : ("junk" : String).data = ['j', 'u', 'n'] ++ ['k'] := by decide
    have hk : 'k' = '.' := by
      apply appendSingleLast (['j', 'u', 'n'])
        (String.data ("Tor version ") ++ mid.data)
      rw [← hsplit]
      exact hd
    exact absurd hk (by decide)

/-- Claim C8: for every tor-command key already present in the version
cache, get_system_tor_version returns the previously stored Version, leaves
the cache unchanged, and does not invoke the underlying discovery step. -/
theorem cachedLookup_no_invocation (cache : VersionCache) (cmd : String)
    (callResult : Option (List String)) (v : Version)
    (h : cacheLookup cache cmd = some v) :
    getSystemTorVersion cache cmd callResult = (Except.ok v, cache, false) := by
  have hunfold : getSystemTorVersion cache cmd callResult =
      (match cacheLookup cache cmd with
       | some v2 => (Except.ok v2, cache, false)
       | none =>
         match callResult with
         | none => (Except.error ("OSError raised by the tor invocation"), cache, true)
         | some output =>
           match parseTorVersionOutput output with
           | Except.ok v2 => (Except.ok v2, (cmd, v2) :: cache, true)
           | Except.error e => (Except.error e, cache, true)) := rfl
  rw [hunfold, h]

/-- Claim C8 witness: the theorem applied to a concrete cache holding the
key, the hypothesis discharged by evaluation. -/
theorem cachedLookup_no_invocation_witness :
    getSystemTorVersion [("tor", vPlain)] "tor" none =
      (Except.ok vPlain, [("tor", vPlain)], false) :=
  cachedLookup_no_invocation _ _ _ vPlain (by rfl)

/-- Claim C9: for every Query whose candidate endpoints all fail, run
terminates with AllEndpointsExhausted carrying exactly one recorded cause
per endpoint tried, in trial order and never empty, and no individual
per-endpoint failure is surfaced outside that terminal aggregate. -/
theorem runQuery_allFail (attempts : List AttemptOutcome)
    (hne : attempts ≠ [])
    (hfail : ∀ a ∈ attempts, ∃ cause, a = AttemptOutcome.fail cause) :
    ∃ causes : List String, attempts = causes.map AttemptOutcome.fail ∧
      runQuery attempts = QueryResult.allEndpointsExhausted causes ∧
      causes.length = attempts.length ∧ causes ≠ [] := by
  obtain ⟨causes, rfl⟩ := allFail_map attempts hfail
  refine ⟨causes, rfl, ?_, by simp, ?_⟩
  · rw [runQuery, runQueryGo_fails causes []]
    simp
  · intro hc
    subst hc
    simp at hne

/-- Claim C9 witness: the theorem applied to two concrete failing
attempts. -/
theorem runQuery_allFail_witness :
    ∃ causes : List String,
      [AttemptOutcome.fail ("timeout"), AttemptOutcome.fail ("connection refused")] =
        causes.map AttemptOutcome.fail ∧
      runQuery [AttemptOutcome.fail ("timeout"), AttemptOutcome.fail ("connection refused")] =
        QueryResult.allEndpointsExhausted causes ∧
      causes.length =
        [AttemptOutcome.fail ("timeout"), AttemptOutcome.fail ("connection refused")].length ∧
      causes ≠ [] := by
  refine runQuery_allFail _ (by decide) ?_
  intro a ha
  rcases List.mem_cons.mp ha with rfl | ha2
  · exact ⟨_, rfl⟩
  · rcases List.mem_cons.mp ha2 with rfl | ha3
    · exact ⟨_, rfl⟩
    · cases ha3

/-- Claim C10: for every Version v and every value x that is not a Version,
the comparison of v against x reports 1 (greater), so a Python equality
check between a Version and any non-Version value is always false. -/
theorem cmp_nonVersion_gt (v : Version) (x : PyValue)
    (h : ∀ w : Version, x ≠ PyValue.version w) :
    pyCmp v x = 1 ∧ pyEq v x = false := by
  cases x with
  | version w => exact absurd rfl (h w)
  | nonVersion tag => exact ⟨rfl, rfl⟩

/-- Claim C10 witness: the theorem applied to a concrete non-Version
value. -/
theorem cmp_nonVersion_gt_witness :
    pyCmp vPlain (PyValue.nonVersion ("5")) = 1 ∧
    pyEq vPlain (PyValue.nonVersion ("5")) = false :=
  cmp_nonVersion_gt vPlain (PyValue.nonVersion ("5")) (fun _ h => PyValue.noConfusion h)

end Stem
